import Mathlib

/-
Verification development for the OPC UA node XML export client
(NodeXmlExporter.py).  The Python class NodeXMLExporter is shallowly
embedded: its node-graph traversal (iterater_over_child_nodes /
start_node_browse), the statistics pass, and the export selection of
export_xml are translated into executable Lean definitions, and the
behavioural properties of the design are proved about them.
-/

set_option maxHeartbeats 1000000

namespace OpcUaExport

/-! ## Node model

A node handle carries its identity's namespace ordinal
(`node.nodeid.NamespaceIndex` in the source) and, for the statistics
pass, the outcome of the remote `read_node_class()` call for this run:
`some s` when the call returns a class whose `str()` is `s`, `none` when
the call raises (the `except` branch of `statistics`). -/

structure UANode where
  ns : Nat
  cls : Option String
deriving DecidableEq

/-! ## Traversal engine

`iterater_over_child_nodes` from the source:

    self.nodes.append(node)
    browse_progressbar.update(len(self.nodes))
    for child in await node.get_children(refs=33):
        if child not in self.nodes:
            await self.iterater_over_child_nodes(child, browse_progressbar)

Vertices are drawn from an arbitrary type with decidable equality
(`child not in self.nodes` compares node identities); the server's
hierarchical-reference enumeration `get_children(refs=33)` is a function
`g : V → List V`.  Python recursion has no fuel, so the embedding takes
a fuel parameter and returns `none` when the fuel is exhausted; the
termination theorems show that fuel `n + 1` always suffices on a finite
address space with `n` vertices. -/

/-- The `for child in ...` loop body of `iterater_over_child_nodes`:
fold over the fetched children, skipping a child already in the
accumulated inventory and otherwise recursing via `visit`. -/
def goChildren {V : Type} [DecidableEq V] (visit : V → List V → Option (List V)) :
    List V → List V → Option (List V)
  | [], ns => some ns
  | c :: cs, ns =>
    if c ∈ ns then goChildren visit cs ns
    else (visit c ns).bind (fun ns2 => goChildren visit cs ns2)

/-- `iterater_over_child_nodes(node)` acting on the inventory `nodes`
(= `self.nodes`): append `node` unconditionally, then iterate over the
hierarchical children.  The progress-bar update has no effect on the
inventory and is elided. -/
def iterOverChildNodes {V : Type} [DecidableEq V] (g : V → List V) :
    Nat → V → List V → Option (List V)
  | 0, _, _ => none
  | fuel + 1, node, nodes =>
    goChildren (fun c ns => iterOverChildNodes g fuel c ns) (g node) (nodes ++ [node])

/-- `start_node_browse(rootnode)`: run the traversal from the root with
the inventory `self.nodes` initially empty. -/
def startNodeBrowse {V : Type} [DecidableEq V] (g : V → List V) (fuel : Nat) (root : V) :
    Option (List V) :=
  iterOverChildNodes g fuel root []

/-- Hierarchical reachability in the reference graph `g`: the vertices
the pre-order walk is meant to discover. -/
inductive Reach {V : Type} (g : V → List V) (a : V) : V → Prop
  | refl : Reach g a a
  | tail {b c : V} : Reach g a b → c ∈ g b → Reach g a c

/-! ## Export selection

From `export_xml`:

    if namespaces:
        nodes = [node for node in self.nodes
                 if node.nodeid.NamespaceIndex in namespaces]
    else:
        nodes = self.nodes

`namespaces` is `None` when the CLI flag is absent (the "all" sentinel)
and a list of ints otherwise; Python truthiness makes both `None` and
the empty list take the `else` branch. -/

/-- Python truthiness of the optional namespace-filter argument:
`None` and `[]` are falsy, a non-empty list is truthy. -/
def pyTruthy : Option (List Nat) → Bool
  | none => false
  | some l => !l.isEmpty

/-- The node-selection step of `export_xml`: filter the inventory by
namespace ordinal when the argument is truthy, otherwise pass the
inventory through. -/
def selectForExport (namespaces : Option (List Nat)) (nodes : List UANode) : List UANode :=
  if pyTruthy namespaces then
    nodes.filter (fun node => node.ns ∈ namespaces.getD [])
  else
    nodes

/-! ## Statistics pass

From `statistics`: nested insertion-ordered dictionaries
`typecounts_per_namespace[ns][node_class]`, a `try`/`except` around each
per-node class read, and a labeling loop that reads
`self.namespaces[ns]` (a `KeyError` — the design's
NamespaceNotResolvedError — when the namespace index was never built). -/

/-- Per-namespace class-count table: insertion-ordered association
lists mirroring the Python dicts. -/
abbrev TypeCounts : Type := List (Nat × List (String × Nat))

/-- `if node_class not in t[ns]: t[ns][node_class] = 1 else: += 1`. -/
def bumpClass (classes : List (String × Nat)) (c : String) : List (String × Nat) :=
  match classes with
  | [] => [(c, 1)]
  | (c0, k) :: rest =>
    if c0 = c then (c0, k + 1) :: rest else (c0, k) :: bumpClass rest c

/-- `if ns not in t: t[ns] = {}` followed by the class bump. -/
def bumpNs (t : TypeCounts) (ns : Nat) (c : String) : TypeCounts :=
  match t with
  | [] => [(ns, [(c, 1)])]
  | (ns0, cl) :: rest =>
    if ns0 = ns then (ns0, bumpClass cl c) :: rest else (ns0, cl) :: bumpNs rest ns c

/-- One iteration of the statistics loop over `self.nodes`: on a
successful class read, bump the count table; on a raised read, log the
node (`self.logger.error(...)`) and leave the table untouched. -/
def statStep (acc : TypeCounts × List UANode) (node : UANode) : TypeCounts × List UANode :=
  match node.cls with
  | some c => (bumpNs acc.1 node.ns c, acc.2)
  | none => (acc.1, acc.2 ++ [node])

/-- The counting loop of `statistics`: fold over the inventory starting
from the empty table and an empty error log. -/
def statCounts (nodes : List UANode) : TypeCounts × List UANode :=
  nodes.foldl statStep ([], [])

/-- `self.namespaces[ns]` as an association-list lookup; `none` models
the raised `KeyError`. -/
def lookupNs (namespaces : List (Nat × String)) (ns : Nat) : Option String :=
  match namespaces with
  | [] => none
  | (k, v) :: rest => if k = ns then some v else lookupNs rest ns

/-- The report-emission loop `for ns in typecounts_per_namespace:`;
labels each namespace via `self.namespaces[ns]` and propagates the
first failed lookup as an error carrying the unresolved ordinal. -/
def labelTable (namespaces : List (Nat × String)) :
    TypeCounts → Except Nat (List (Nat × String × List (String × Nat)))
  | [] => Except.ok []
  | (ns, cl) :: rest =>
    match lookupNs namespaces ns with
    | none => Except.error ns
    | some uri =>
      match labelTable namespaces rest with
      | Except.error e => Except.error e
      | Except.ok r => Except.ok ((ns, uri, cl) :: r)

/-- What one full run of `statistics` produces: the count table, its
labeled report form, the list of nodes whose class read failed (each
one logged), and the total reported on the final line
(`len(self.nodes)`). -/
structure StatReport where
  table : TypeCounts
  labeled : List (Nat × String × List (String × Nat))
  loggedErrors : List UANode
  totalReported : Nat
deriving DecidableEq

/-- The whole `statistics` method: count, then label; a failed
namespace lookup aborts the method with the unresolved ordinal (the
`KeyError` escaping `statistics`). -/
def statisticsRun (namespaces : List (Nat × String)) (nodes : List UANode) :
    Except Nat StatReport :=
  let tc := statCounts nodes
  match labelTable namespaces tc.1 with
  | Except.error e => Except.error e
  | Except.ok lab => Except.ok ⟨tc.1, lab, tc.2, nodes.length⟩

/-- Total occurrence count held in a class table. -/
def sumClasses (classes : List (String × Nat)) : Nat :=
  (classes.map Prod.snd).sum

/-- Total occurrence count held in the whole count table. -/
def sumCounts (t : TypeCounts) : Nat :=
  (t.map (fun p => sumClasses p.2)).sum

/-! ## Exporter state and methods (frame properties)

`self.nodes` and `self.namespaces` are the object state the statistics
and export methods can see.  Both method bodies only read `self.nodes`
(`statistics` indexes into it, `export_xml` builds a fresh filtered
list in a local variable), so their embeddings return the receiver
state unchanged alongside their result. -/

structure ExporterState where
  nodes : List UANode
  namespaces : List (Nat × String)
deriving DecidableEq

/-- The `statistics` method as a state transformer. -/
def statisticsMethod (st : ExporterState) : ExporterState × Except Nat StatReport :=
  (st, statisticsRun st.namespaces st.nodes)

/-- The node-selection part of the `export_xml` method as a state
transformer (serialization itself is the external collaborator). -/
def exportXmlMethod (st : ExporterState) (namespaces : Option (List Nat)) :
    ExporterState × List UANode :=
  (st, selectForExport namespaces st.nodes)

/-! ## Connection establishment (`import_nodes`, lines 102-108)

    try:
        await self.client.connect()
    except Exception as e:
        self.logger.error("No connection established", e)
        self.logger.error(e)
        self.logger.error("Exiting ...")
        sys.exit()

`sys.exit()` is called with no argument, which raises `SystemExit(None)`
and terminates the interpreter with exit status 0. -/

inductive ConnectOutcome where
  | success : ConnectOutcome
  | failure : String → ConnectOutcome
deriving DecidableEq

/-- Outcome of `import_nodes` up to the start of traversal:
whether the process exited (and with which status), which error lines
were logged, and whether `start_node_browse` was reached. -/
structure ImportOutcome where
  exitCode : Option Nat
  errorLogs : List String
  browseStarted : Bool
deriving DecidableEq

/-- The connection stage of `import_nodes`: on a raised `connect()`,
log the three error lines and exit via `sys.exit()` — no argument, so
the process terminates with status 0 — before any traversal; on
success, proceed to namespace-index construction and traversal. -/
def importNodesConnect (connect : ConnectOutcome) : ImportOutcome :=
  match connect with
  | ConnectOutcome.failure e =>
    ⟨some 0, ["No connection established", e, "Exiting ..."], false⟩
  | ConnectOutcome.success => ⟨none, [], true⟩

/-! ## Concrete instances used by the witness theorems -/

/-- A one-vertex address space with no hierarchical references. -/
def gOne : Fin 1 → List (Fin 1) := fun _ => []

/-- A three-vertex address space whose hierarchical references form the
cycle 0 → 1 → 2 → 0. -/
def gCyc : Fin 3 → List (Fin 3) :=
  fun v => if v = 0 then [1] else if v = 1 then [2] else [0]

/-- An inventory with namespace ordinals 0, 0, 2, 2, 3 (the filtering
scenario of the design's testable properties). -/
def invW : List UANode :=
  [⟨0, some "Object"⟩, ⟨0, some "Variable"⟩, ⟨2, some "Object"⟩,
   ⟨2, some "Method"⟩, ⟨3, some "Object"⟩]

/-- Ten inventory nodes of which exactly one fails its class read. -/
def statNodesW : List UANode :=
  List.replicate 9 ⟨0, some "Object"⟩ ++ [⟨0, none⟩]

/-- A one-entry namespace index. -/
def statNssW : List (Nat × String) := [(0, "http://opcfoundation.org/UA/")]

/-- The report `statistics` produces on `statNodesW` with `statNssW`. -/
def statReportW : StatReport :=
  ⟨[(0, [("Object", 9)])], [(0, "http://opcfoundation.org/UA/", [("Object", 9)])],
   [⟨0, none⟩], 10⟩

/-! # Theorems -/

/-! ## Traversal engine lemmas -/

section TraversalLemmas

variable {V : Type} [DecidableEq V]

theorem goChildren_nil (visit : V → List V → Option (List V)) (ns : List V) :
    goChildren visit [] ns = some ns := rfl

theorem goChildren_cons_mem (visit : V → List V → Option (List V)) {c : V} (cs : List V)
    {ns : List V} (hc : c ∈ ns) :
    goChildren visit (c :: cs) ns = goChildren visit cs ns := by
  simp [goChildren, hc]

theorem goChildren_cons_not_mem (visit : V → List V → Option (List V)) {c : V} (cs : List V)
    {ns : List V} (hc : c ∉ ns) :
    goChildren visit (c :: cs) ns =
      (visit c ns).bind (fun ns2 => goChildren visit cs ns2) := by
  simp [goChildren, hc]

theorem iterOver_zero (g : V → List V) (node : V) (ns : List V) :
    iterOverChildNodes g 0 node ns = none := rfl

theorem iterOver_succ (g : V → List V) (fuel : Nat) (node : V) (ns : List V) :
    iterOverChildNodes g (fuel + 1) node ns =
      goChildren (fun c ns2 => iterOverChildNodes g fuel c ns2) (g node) (ns ++ [node]) := rfl

/-- The child loop only ever appends to the inventory: a successful run
extends its input inventory on the right. -/
theorem goChildren_grows (visit : V → List V → Option (List V))
    (hm : ∀ c ns out, visit c ns = some out → ns <+: out) :
    ∀ (cs ns out : List V), goChildren visit cs ns = some out → ns <+: out := by
  intro cs
  induction cs with
  | nil =>
    intro ns out h
    rw [goChildren_nil] at h
    have h2 := Option.some.inj h
    subst h2
    exact List.prefix_rfl
  | cons c cs ih =>
    intro ns out h
    by_cases hc : c ∈ ns
    · rw [goChildren_cons_mem visit cs hc] at h
      exact ih ns out h
    · rw [goChildren_cons_not_mem visit cs hc] at h
      cases hv : visit c ns with
      | none => rw [hv] at h; exact absurd h (by simp)
      | some ns2 =>
        rw [hv, Option.some_bind] at h
        exact (hm c ns ns2 hv).trans (ih ns2 out h)

/-- The visit procedure appends its argument node and then only grows
the inventory further. -/
theorem iterOver_grows (g : V → List V) :
    ∀ (fuel : Nat) (node : V) (ns out : List V),
      iterOverChildNodes g fuel node ns = some out → ns ++ [node] <+: out := by
  intro fuel
  induction fuel with
  | zero =>
    intro node ns out h
    rw [iterOver_zero] at h
    exact absurd h (by simp)
  | succ fuel ih =>
    intro node ns out h
    rw [iterOver_succ] at h
    exact goChildren_grows _
      (fun c ns2 out2 hv => (List.prefix_append ns2 [c]).trans (ih c ns2 out2 hv))
      (g node) (ns ++ [node]) out h

/-- The child loop preserves distinctness of the inventory, because the
only recursive calls it makes are on children not yet collected. -/
theorem goChildren_nodupPreserve (visit : V → List V → Option (List V))
    (hn : ∀ c ns out, visit c ns = some out → c ∉ ns → ns.Nodup → out.Nodup) :
    ∀ (cs ns out : List V), goChildren visit cs ns = some out → ns.Nodup → out.Nodup := by
  intro cs
  induction cs with
  | nil =>
    intro ns out h hnd
    rw [goChildren_nil] at h
    have h2 := Option.some.inj h
    subst h2
    exact hnd
  | cons c cs ih =>
    intro ns out h hnd
    by_cases hc : c ∈ ns
    · rw [goChildren_cons_mem visit cs hc] at h
      exact ih ns out h hnd
    · rw [goChildren_cons_not_mem visit cs hc] at h
      cases hv : visit c ns with
      | none => rw [hv] at h; exact absurd h (by simp)
      | some ns2 =>
        rw [hv, Option.some_bind] at h
        exact ih ns2 out h (hn c ns ns2 hv hc hnd)

/-- A visit on a node not yet collected, with a duplicate-free
inventory, yields a duplicate-free inventory. -/
theorem iterOver_nodupPreserve (g : V → List V) :
    ∀ (fuel : Nat) (node : V) (ns out : List V),
      iterOverChildNodes g fuel node ns = some out → node ∉ ns → ns.Nodup → out.Nodup := by
  intro fuel
  induction fuel with
  | zero =>
    intro node ns out h _ _
    rw [iterOver_zero] at h
    exact absurd h (by simp)
  | succ fuel ih =>
    intro node ns out h hmem hnd
    rw [iterOver_succ] at h
    have hinit : (ns ++ [node]).Nodup := by
      rw [List.nodup_append, List.disjoint_singleton]
      exact ⟨hnd, List.nodup_singleton node, hmem⟩
    exact goChildren_nodupPreserve _
      (fun c ns2 out2 hv hc hnd2 => ih c ns2 out2 hv hc hnd2)
      (g node) (ns ++ [node]) out h hinit

/-- Every node a successful child loop leaves in the inventory either
was already there when the loop started or has all of its hierarchical
children in the final inventory; moreover every child in the processed
list ends up in the final inventory. -/
theorem goChildren_closure (g : V → List V) (visit : V → List V → Option (List V))
    (hm : ∀ c ns out, visit c ns = some out → ns ++ [c] <+: out)
    (hc : ∀ c ns out, visit c ns = some out → ∀ v ∈ out, v ∈ ns ∨ ∀ d ∈ g v, d ∈ out) :
    ∀ (cs ns out : List V), goChildren visit cs ns = some out →
      (∀ v ∈ out, v ∈ ns ∨ ∀ d ∈ g v, d ∈ out) ∧ ∀ c ∈ cs, c ∈ out := by
  intro cs
  have hmWeak : ∀ c ns out, visit c ns = some out → ns <+: out :=
    fun c ns out hv => (List.prefix_append ns [c]).trans (hm c ns out hv)
  induction cs with
  | nil =>
    intro ns out h
    rw [goChildren_nil] at h
    have h2 := Option.some.inj h
    subst h2
    exact ⟨fun v hv => Or.inl hv, by simp⟩
  | cons c cs ih =>
    intro ns out h
    by_cases hcm : c ∈ ns
    · rw [goChildren_cons_mem visit cs hcm] at h
      obtain ⟨h1, h2⟩ := ih ns out h
      refine ⟨h1, fun d hd => ?_⟩
      rcases List.mem_cons.mp hd with rfl | hd2
      · exact (goChildren_grows visit hmWeak cs ns out h).subset hcm
      · exact h2 d hd2
    · rw [goChildren_cons_not_mem visit cs hcm] at h
      cases hv : visit c ns with
      | none => rw [hv] at h; exact absurd h (by simp)
      | some ns2 =>
        rw [hv, Option.some_bind] at h
        obtain ⟨h1, h2⟩ := ih ns2 out h
        have hsub : ns2 ⊆ out := (goChildren_grows visit hmWeak cs ns2 out h).subset
        refine ⟨fun v hvo => ?_, fun e he => ?_⟩
        · rcases h1 v hvo with hvns2 | hclosed
          · rcases hc c ns ns2 hv v hvns2 with hvns | hcl2
            · exact Or.inl hvns
            · exact Or.inr fun d hd => hsub (hcl2 d hd)
          · exact Or.inr hclosed
        · rcases List.mem_cons.mp he with rfl | he2
          · exact hsub ((hm e ns ns2 hv).subset (by simp))
          · exact h2 e he2

/-- Every node a successful visit leaves in the inventory either was
already present at entry or has all its hierarchical children in the
final inventory. -/
theorem iterOver_closure (g : V → List V) :
    ∀ (fuel : Nat) (node : V) (ns out : List V),
      iterOverChildNodes g fuel node ns = some out →
      ∀ v ∈ out, v ∈ ns ∨ ∀ d ∈ g v, d ∈ out := by
  intro fuel
  induction fuel with
  | zero =>
    intro node ns out h
    rw [iterOver_zero] at h
    exact absurd h (by simp)
  | succ fuel ih =>
    intro node ns out h
    rw [iterOver_succ] at h
    obtain ⟨h1, h2⟩ := goChildren_closure g _
      (fun c ns2 out2 hv => iterOver_grows g fuel c ns2 out2 hv)
      (fun c ns2 out2 hv => ih c ns2 out2 hv)
      (g node) (ns ++ [node]) out h
    intro v hv
    rcases h1 v hv with hvm | hcl
    · rcases List.mem_append.mp hvm with hvns | hveq
      · exact Or.inl hvns
      · have hveq2 : v = node := by simpa using hveq
        subst hveq2
        exact Or.inr h2
    · exact Or.inr hcl

omit [DecidableEq V] in
theorem Reach.trans {g : V → List V} {a b c : V}
    (h1 : Reach g a b) (h2 : Reach g b c) : Reach g a c := by
  induction h2 with
  | refl => exact h1
  | tail _ hmm ih => exact Reach.tail ih hmm

/-- Everything a successful child loop adds to the inventory is
hierarchically reachable from one of the processed children. -/
theorem goChildren_sound (g : V → List V) (visit : V → List V → Option (List V))
    (hs : ∀ c ns out, visit c ns = some out → ∀ v ∈ out, v ∈ ns ∨ Reach g c v) :
    ∀ (cs ns out : List V), goChildren visit cs ns = some out →
      ∀ v ∈ out, v ∈ ns ∨ ∃ c, c ∈ cs ∧ Reach g c v := by
  intro cs
  induction cs with
  | nil =>
    intro ns out h v hv
    rw [goChildren_nil] at h
    have h2 := Option.some.inj h
    subst h2
    exact Or.inl hv
  | cons c cs ih =>
    intro ns out h v hv
    by_cases hcm : c ∈ ns
    · rw [goChildren_cons_mem visit cs hcm] at h
      rcases ih ns out h v hv with h1 | ⟨c2, hc2, hr⟩
      · exact Or.inl h1
      · exact Or.inr ⟨c2, List.mem_cons_of_mem c hc2, hr⟩
    · rw [goChildren_cons_not_mem visit cs hcm] at h
      cases hvv : visit c ns with
      | none => rw [hvv] at h; exact absurd h (by simp)
      | some ns2 =>
        rw [hvv, Option.some_bind] at h
        rcases ih ns2 out h v hv with h1 | ⟨c2, hc2, hr⟩
        · rcases hs c ns ns2 hvv v h1 with h2 | h2
          · exact Or.inl h2
          · exact Or.inr ⟨c, List.mem_cons_self c cs, h2⟩
        · exact Or.inr ⟨c2, List.mem_cons_of_mem c hc2, hr⟩

/-- Everything a successful visit adds to the inventory is
hierarchically reachable from the visited node. -/
theorem iterOver_sound (g : V → List V) :
    ∀ (fuel : Nat) (node : V) (ns out : List V),
      iterOverChildNodes g fuel node ns = some out →
      ∀ v ∈ out, v ∈ ns ∨ Reach g node v := by
  intro fuel
  induction fuel with
  | zero =>
    intro node ns out h
    rw [iterOver_zero] at h
    exact absurd h (by simp)
  | succ fuel ih =>
    intro node ns out h v hv
    rw [iterOver_succ] at h
    rcases goChildren_sound g _
        (fun c ns2 out2 hvv => ih c ns2 out2 hvv)
        (g node) (ns ++ [node]) out h v hv with h1 | ⟨c, hc, hr⟩
    · rcases List.mem_append.mp h1 with h2 | h2
      · exact Or.inl h2
      · have h3 : v = node := by simpa using h2
        subst h3
        exact Or.inr Reach.refl
    · exact Or.inr (Reach.trans (Reach.tail Reach.refl hc) hr)

/-- Starting from the empty inventory, a successful traversal collects
every node hierarchically reachable from the root. -/
theorem iterOver_complete (g : V → List V) (fuel : Nat) (root : V) (out : List V)
    (h : iterOverChildNodes g fuel root [] = some out) :
    ∀ v, Reach g root v → v ∈ out := by
  intro v hv
  induction hv with
  | refl => exact (iterOver_grows g fuel root [] out h).subset (by simp)
  | tail _ hmm ih =>
    rcases iterOver_closure g fuel root [] out h _ ih with h0 | hcl
    · exact absurd h0 (List.not_mem_nil _)
    · exact hcl _ hmm

end TraversalLemmas

/-- The child loop succeeds whenever the visit procedure succeeds on
every not-yet-collected node within its fuel budget; the budget
argument is phrased additively over the number of distinct collected
identities out of the `n` possible. -/
theorem goChildren_total {n : Nat} (visit : Fin n → List (Fin n) → Option (List (Fin n)))
    (F : Nat)
    (hm : ∀ c ns out, visit c ns = some out → ns ++ [c] <+: out)
    (ht : ∀ (c : Fin n) (ns : List (Fin n)), c ∉ ns → n + 1 ≤ F + ns.toFinset.card →
      ∃ out, visit c ns = some out) :
    ∀ (cs ns : List (Fin n)), n + 1 ≤ F + ns.toFinset.card →
      ∃ out, goChildren visit cs ns = some out := by
  intro cs
  induction cs with
  | nil => intro ns _; exact ⟨ns, rfl⟩
  | cons c cs ih =>
    intro ns hcard
    by_cases hc : c ∈ ns
    · obtain ⟨out, hout⟩ := ih ns hcard
      exact ⟨out, by rw [goChildren_cons_mem visit cs hc]; exact hout⟩
    · obtain ⟨ns2, hv⟩ := ht c ns hc hcard
      have hsub : ns.toFinset ⊆ ns2.toFinset := by
        intro x hx
        exact List.mem_toFinset.mpr
          (((hm c ns ns2 hv).subset) (List.mem_append_left [c] (List.mem_toFinset.mp hx)))
      have hcard2 : n + 1 ≤ F + ns2.toFinset.card := by
        have := Finset.card_le_card hsub
        omega
      obtain ⟨out, hout⟩ := ih ns2 hcard2
      exact ⟨out, by rw [goChildren_cons_not_mem visit cs hc, hv, Option.some_bind]; exact hout⟩

/-- Fuel sufficiency: on an address space with `n` node identities, the
visit procedure succeeds on any not-yet-collected node once the fuel
exceeds the number of identities still uncollected. -/
theorem iterOver_total {n : Nat} (g : Fin n → List (Fin n)) :
    ∀ (F : Nat) (node : Fin n) (ns : List (Fin n)), node ∉ ns →
      n + 1 ≤ F + ns.toFinset.card → ∃ out, iterOverChildNodes g F node ns = some out := by
  intro F
  induction F with
  | zero =>
    intro node ns _ hcard
    exfalso
    have hle : ns.toFinset.card ≤ n := le_trans (Finset.card_le_univ _) (by simp)
    omega
  | succ F ih =>
    intro node ns hmem hcard
    have hA : (ns ++ [node]).toFinset.card = ns.toFinset.card + 1 := by
      rw [show (ns ++ [node]).toFinset = insert node ns.toFinset by ext x; simp [or_comm]]
      rw [Finset.card_insert_of_not_mem (by simpa using hmem)]
    obtain ⟨out, hout⟩ := goChildren_total _ F
      (fun c ns2 out2 hv => iterOver_grows g F c ns2 out2 hv)
      (fun c ns2 hc hcard2 => ih c ns2 hc hcard2)
      (g node) (ns ++ [node]) (by rw [hA]; omega)
    exact ⟨out, by rw [iterOver_succ]; exact hout⟩

/-- Walking a chain of hierarchical references starting at a reachable
node keeps every chain member reachable from the root. -/
theorem chainMemReach {V : Type} {g : V → List V} {root : V} :
    ∀ (a : V) (rest : List V), Reach g root a →
      List.Chain' (fun x y => y ∈ g x) (a :: rest) →
      ∀ v ∈ a :: rest, Reach g root v := by
  intro a rest
  induction rest generalizing a with
  | nil =>
    intro ha _ v hv
    have hva : v = a := by simpa using hv
    subst hva
    exact ha
  | cons b rest ih =>
    intro ha hch v hv
    rw [List.chain'_cons] at hch
    rcases List.mem_cons.mp hv with rfl | hv2
    · exact ha
    · exact ih b (Reach.tail ha hch.1) hch.2 v hv2

/-! ## Statistics lemmas -/

theorem sumClasses_bumpClass (classes : List (String × Nat)) (c : String) :
    sumClasses (bumpClass classes c) = sumClasses classes + 1 := by
  induction classes with
  | nil => simp [bumpClass, sumClasses]
  | cons p rest ih =>
    obtain ⟨c0, k⟩ := p
    by_cases hc : c0 = c
    · subst hc
      simp [bumpClass, sumClasses]
      omega
    · simp [bumpClass, hc, sumClasses] at ih ⊢
      omega

theorem sumCounts_bumpNs (t : TypeCounts) (ns : Nat) (c : String) :
    sumCounts (bumpNs t ns c) = sumCounts t + 1 := by
  induction t with
  | nil => simp [bumpNs, sumCounts, sumClasses, bumpClass]
  | cons p rest ih =>
    obtain ⟨ns0, cl⟩ := p
    by_cases hns : ns0 = ns
    · subst hns
      simp [bumpNs, sumCounts, sumClasses_bumpClass]
      omega
    · simp [bumpNs, hns, sumCounts] at ih ⊢
      omega

/-- The count table accumulated by the statistics loop grows by exactly
one per successful class read. -/
theorem statFold_table_sum (nodes : List UANode) :
    ∀ acc : TypeCounts × List UANode,
      sumCounts (nodes.foldl statStep acc).1 =
        sumCounts acc.1 + (nodes.filter (fun nd => nd.cls.isSome)).length := by
  induction nodes with
  | nil => intro acc; simp
  | cons nd nodes ih =>
    intro acc
    rw [List.foldl_cons, ih]
    cases hcls : nd.cls with
    | none => simp [statStep, hcls, List.filter_cons]
    | some c =>
      simp [statStep, hcls, List.filter_cons, sumCounts_bumpNs]
      omega

/-- The statistics loop logs exactly the nodes whose class read raised,
in inventory order. -/
theorem statFold_errors (nodes : List UANode) :
    ∀ acc : TypeCounts × List UANode,
      (nodes.foldl statStep acc).2 = acc.2 ++ nodes.filter (fun nd => nd.cls.isNone) := by
  induction nodes with
  | nil => intro acc; simp
  | cons nd nodes ih =>
    intro acc
    rw [List.foldl_cons, ih]
    cases hcls : nd.cls with
    | none => simp [statStep, hcls, List.filter_cons]
    | some c => simp [statStep, hcls, List.filter_cons]

theorem filter_some_add_none_length (nodes : List UANode) :
    (nodes.filter (fun nd => nd.cls.isSome)).length +
      (nodes.filter (fun nd => nd.cls.isNone)).length = nodes.length := by
  induction nodes with
  | nil => simp
  | cons nd nodes ih =>
    cases hcls : nd.cls with
    | none =>
      simp [List.filter_cons, hcls]
      omega
    | some c =>
      simp [List.filter_cons, hcls]
      omega

theorem bumpNs_ne_nil (t : TypeCounts) (ns : Nat) (c : String) : bumpNs t ns c ≠ [] := by
  cases t with
  | nil => simp [bumpNs]
  | cons p rest =>
    obtain ⟨ns0, cl⟩ := p
    by_cases h : ns0 = ns <;> simp [bumpNs, h]

/-- The count table is non-empty after the loop whenever some class
read succeeds (or it was already non-empty). -/
theorem statFold_table_ne_nil (nodes : List UANode) :
    ∀ acc : TypeCounts × List UANode,
      ((∃ nd ∈ nodes, nd.cls.isSome = true) ∨ acc.1 ≠ []) →
      (nodes.foldl statStep acc).1 ≠ [] := by
  induction nodes with
  | nil =>
    intro acc h
    rcases h with h | h
    · simp at h
    · simpa using h
  | cons nd nodes ih =>
    intro acc h
    rw [List.foldl_cons]
    cases hcls : nd.cls with
    | some c =>
      apply ih
      right
      simpa [statStep, hcls] using bumpNs_ne_nil acc.1 nd.ns c
    | none =>
      apply ih
      rcases h with h | h
      · rcases h with ⟨nd2, hmem, hsome⟩
        rcases List.mem_cons.mp hmem with rfl | hmem2
        · rw [hcls] at hsome
          simp at hsome
        · exact Or.inl ⟨nd2, hmem2, hsome⟩
      · right
        simpa [statStep, hcls] using h

/-! ## Claim theorems -/

/-- Claim C1: for every finite reference graph (multiple hierarchical
paths to a node included), the traversal from the root — run with fuel
`n + 1`, which the proof shows always suffices on `n` node identities —
produces an inventory in which no node identity appears twice and whose
members are exactly the hierarchically reachable nodes. -/
theorem traversal_exactly_once (n : Nat) (g : Fin n → List (Fin n)) (root : Fin n) :
    ∃ out, startNodeBrowse g (n + 1) root = some out ∧ out.Nodup ∧
      ∀ v, v ∈ out ↔ Reach g root v := by
  obtain ⟨out, hout⟩ := iterOver_total g (n + 1) root [] (List.not_mem_nil root) (by simp)
  refine ⟨out, hout, iterOver_nodupPreserve g (n + 1) root [] out hout
    (List.not_mem_nil root) List.nodup_nil, fun v => ⟨?_, ?_⟩⟩
  · intro hv
    rcases iterOver_sound g (n + 1) root [] out hout v hv with h0 | hr
    · exact absurd h0 (List.not_mem_nil v)
    · exact hr
  · exact fun hr => iterOver_complete g (n + 1) root out hout v hr

/-- Claim C2: on a finite reference graph containing a hierarchical
reference cycle `a :: rest` (consecutive edges plus a wrap-around edge)
reachable from the root, the traversal terminates with fuel `n + 1`
and every node of the cycle appears exactly once in the inventory. -/
theorem traversal_cycle_each_once (n : Nat) (g : Fin n → List (Fin n)) (root a : Fin n)
    (rest : List (Fin n))
    (hreach : Reach g root a)
    (hchain : List.Chain' (fun x y => y ∈ g x) (a :: rest))
    (_hwrap : a ∈ g (List.getLast (a :: rest) (List.cons_ne_nil a rest))) :
    ∃ out, startNodeBrowse g (n + 1) root = some out ∧
      ∀ v ∈ a :: rest, out.count v = 1 := by
  obtain ⟨out, hout⟩ := iterOver_total g (n + 1) root [] (List.not_mem_nil root) (by simp)
  have hnd : out.Nodup := iterOver_nodupPreserve g (n + 1) root [] out hout
    (List.not_mem_nil root) List.nodup_nil
  refine ⟨out, hout, fun v hv => ?_⟩
  exact List.count_eq_one_of_mem hnd
    (iterOver_complete g (n + 1) root out hout v (chainMemReach a rest hreach hchain v hv))

/-- Witness for claim C2 on the concrete three-node cycle
0 → 1 → 2 → 0 traversed from 0. -/
theorem traversal_cycle_each_once_witness :
    ∃ out, startNodeBrowse gCyc (3 + 1) 0 = some out ∧
      ∀ v ∈ [(0 : Fin 3), 1, 2], out.count v = 1 :=
  traversal_cycle_each_once 3 gCyc 0 0 [1, 2] Reach.refl
    (by rw [List.chain'_cons, List.chain'_cons]
        exact ⟨by decide, by decide, List.chain'_singleton 2⟩)
    (by decide)

/-- Counterexample to claim C4 as stated: invoked on a node that is
already in the inventory, the visit procedure does not return the
inventory unchanged — it appends the node a second time. -/
theorem visit_already_collected_appends_duplicate :
    iterOverChildNodes gOne 1 0 [0] = some [0, 0] ∧
      iterOverChildNodes gOne 1 0 [0] ≠ some [0] := by decide

/-- Claim C4 (amended): the visit procedure has no entry guard — a call
on a node already in the inventory appends a duplicate — while a call
on a not-yet-collected node (the only kind the caller-side child guard
lets through) preserves distinctness of the inventory. -/
theorem visit_entry_unguarded (n : Nat) (g : Fin n → List (Fin n)) (fuel : Nat)
    (node : Fin n) (ns out : List (Fin n))
    (h : iterOverChildNodes g fuel node ns = some out) :
    (node ∈ ns → ¬ out.Nodup) ∧ (node ∉ ns → ns.Nodup → out.Nodup) := by
  constructor
  · intro hmem hnd
    have hpre := iterOver_grows g fuel node ns out h
    have hnd2 : (ns ++ [node]).Nodup := hnd.sublist hpre.sublist
    rw [List.nodup_append, List.disjoint_singleton] at hnd2
    exact hnd2.2.2 hmem
  · exact fun hmem hnd => iterOver_nodupPreserve g fuel node ns out h hmem hnd

/-- Witness for the amended claim C4 at a concrete re-entrant call. -/
theorem visit_entry_unguarded_witness :
    ((0 : Fin 1) ∈ [(0 : Fin 1)] → ¬ ([0, 0] : List (Fin 1)).Nodup) ∧
    ((0 : Fin 1) ∉ [(0 : Fin 1)] → ([(0 : Fin 1)] : List (Fin 1)).Nodup →
      ([0, 0] : List (Fin 1)).Nodup) :=
  visit_entry_unguarded 1 gOne 1 0 [0] [0, 0] rfl

/-- Claim C3: when `statistics` completes, the reported total equals
the full inventory size, the per-type counts sum to the number of
successful class reads, the logged failures are exactly the nodes whose
read raised, and counts plus failures make up the whole inventory. -/
theorem statistics_tolerates_read_failures (nss : List (Nat × String)) (nodes : List UANode)
    (r : StatReport) (h : statisticsRun nss nodes = Except.ok r) :
    r.totalReported = nodes.length ∧
    sumCounts r.table = (nodes.filter (fun nd => nd.cls.isSome)).length ∧
    r.loggedErrors = nodes.filter (fun nd => nd.cls.isNone) ∧
    sumCounts r.table + r.loggedErrors.length = nodes.length := by
  simp only [statisticsRun] at h
  cases hl : labelTable nss (statCounts nodes).1 with
  | error e =>
    rw [hl] at h
    exact absurd h (by simp)
  | ok lab =>
    rw [hl] at h
    have h2 := Except.ok.inj h
    subst h2
    have hsum : sumCounts (statCounts nodes).1 =
        (nodes.filter (fun nd => nd.cls.isSome)).length := by
      have := statFold_table_sum nodes ([], [])
      simpa [statCounts, sumCounts] using this
    have herr : (statCounts nodes).2 = nodes.filter (fun nd => nd.cls.isNone) := by
      have := statFold_errors nodes ([], [])
      simpa [statCounts] using this
    refine ⟨rfl, hsum, herr, ?_⟩
    rw [hsum, herr]
    exact filter_some_add_none_length nodes

/-- Witness for claim C3: ten nodes of which one fails its class read;
the total is 10 and the per-type counts sum to 9. -/
theorem statistics_tolerates_read_failures_witness :
    statReportW.totalReported = statNodesW.length ∧
    sumCounts statReportW.table = (statNodesW.filter (fun nd => nd.cls.isSome)).length ∧
    statReportW.loggedErrors = statNodesW.filter (fun nd => nd.cls.isNone) ∧
    sumCounts statReportW.table + statReportW.loggedErrors.length = statNodesW.length :=
  statistics_tolerates_read_failures statNssW statNodesW statReportW rfl

/-- Counterexample to claim C7 as stated: with the namespace index
unbuilt (empty), a statistics pass over a non-empty inventory whose
only class read fails completes without raising any error, because the
labeling loop over the empty count table never runs. -/
theorem statistics_before_index_can_succeed :
    statisticsRun [] [⟨0, none⟩] = Except.ok ⟨[], [], [⟨0, none⟩], 1⟩ := rfl

/-- Claim C7 (amended): if statistics runs before the namespace index
is built, it fails with the namespace-lookup error (the `KeyError` on
`self.namespaces[ns]`) whenever at least one node's class read
succeeds, i.e. whenever the count table is non-empty. -/
theorem statistics_before_index_fails (nodes : List UANode)
    (h : ∃ nd ∈ nodes, nd.cls.isSome = true) :
    ∃ e, statisticsRun [] nodes = Except.error e := by
  have htbl : (statCounts nodes).1 ≠ [] :=
    statFold_table_ne_nil nodes ([], []) (Or.inl h)
  cases htc : (statCounts nodes).1 with
  | nil => exact absurd htc htbl
  | cons p rest =>
    obtain ⟨ns0, cl⟩ := p
    refine ⟨ns0, ?_⟩
    simp only [statisticsRun]
    rw [htc]
    simp [labelTable, lookupNs]

/-- Witness for the amended claim C7 at a one-node inventory with a
successful class read. -/
theorem statistics_before_index_fails_witness :
    ∃ e, statisticsRun [] [⟨0, some "Object"⟩] = Except.error e :=
  statistics_before_index_fails [⟨0, some "Object"⟩] (by decide)

/-- Counterexample to claim C5 as stated: with the empty (present,
non-sentinel) filter, selection returns the whole inventory rather than
the nodes whose ordinal lies in the filter (there are none). -/
theorem export_empty_filter_breaks_membership :
    selectForExport (some []) [⟨0, some "Object"⟩] = [⟨0, some "Object"⟩] ∧
      selectForExport (some []) [⟨0, some "Object"⟩] ≠
        List.filter (fun node => node.ns ∈ ([] : List Nat)) [⟨0, some "Object"⟩] := by
  decide

/-- Claim C5 (amended): for every non-empty filter F, export selection
is idempotent and returns the order-preserving subsequence of the
inventory consisting exactly of the nodes whose namespace ordinal is in
F; an empty supplied filter instead behaves like the absent filter. -/
theorem export_filter_idempotent_ordered (inv : List UANode) (F : List Nat) (hF : F ≠ []) :
    selectForExport (some F) (selectForExport (some F) inv) = selectForExport (some F) inv ∧
    (selectForExport (some F) inv).Sublist inv ∧
    selectForExport (some F) inv = inv.filter (fun node => node.ns ∈ F) := by
  have hT : pyTruthy (some F) = true := by
    cases F with
    | nil => exact absurd rfl hF
    | cons a l => rfl
  have hsel : ∀ l : List UANode,
      selectForExport (some F) l = l.filter (fun node => node.ns ∈ F) := by
    intro l
    simp [selectForExport, hT]
  refine ⟨?_, ?_, hsel inv⟩
  · rw [hsel (selectForExport (some F) inv), hsel inv]
    apply List.filter_eq_self.mpr
    intro a ha
    exact (List.mem_filter.mp ha).2
  · rw [hsel]
    exact List.filter_sublist inv

/-- Witness for the amended claim C5: filter {2} on the inventory with
ordinals 0, 0, 2, 2, 3. -/
theorem export_filter_idempotent_ordered_witness :
    (selectForExport (some [2]) (selectForExport (some [2]) invW) =
      selectForExport (some [2]) invW) ∧
    (selectForExport (some [2]) invW).Sublist invW ∧
    selectForExport (some [2]) invW = invW.filter (fun node => node.ns ∈ [2]) :=
  export_filter_idempotent_ordered invW [2] (by decide)

/-- Claim C6: export selection with the "all" sentinel (no filter
supplied, `None`) returns the inventory unchanged. -/
theorem export_all_sentinel_unchanged (inv : List UANode) :
    selectForExport none inv = inv := rfl

/-- Claim C10: an empty but present filter list is falsy, exactly like
the absent filter, so the full inventory is exported. -/
theorem export_empty_filter_behaves_like_all (inv : List UANode) :
    selectForExport (some []) inv = inv ∧
      selectForExport (some []) inv = selectForExport none inv :=
  ⟨rfl, rfl⟩

/-- Claim C9: neither the statistics pass nor export selection mutates
the exporter state, in particular the inventory sequence `self.nodes`
(membership and order both preserved, as list equality). -/
theorem inventory_readonly (st : ExporterState) (f : Option (List Nat)) :
    (statisticsMethod st).1 = st ∧ (statisticsMethod st).1.nodes = st.nodes ∧
    (exportXmlMethod st f).1 = st ∧ (exportXmlMethod st f).1.nodes = st.nodes :=
  ⟨rfl, rfl, rfl, rfl⟩

/-- Claim C8 (code bug): on a failed `connect()` the code logs the
error lines and terminates before traversal begins, but `sys.exit()` is
called with no argument, so the process exit status is 0 — not the
non-zero status the design requires. -/
theorem connect_failure_exits_with_zero :
    (importNodesConnect (ConnectOutcome.failure "connection refused")).exitCode = some 0 ∧
    (importNodesConnect (ConnectOutcome.failure "connection refused")).browseStarted = false ∧
    (importNodesConnect (ConnectOutcome.failure "connection refused")).errorLogs =
      ["No connection established", "connection refused", "Exiting ..."] :=
  ⟨rfl, rfl, rfl⟩

end OpcUaExport
